import Mathlib

/-!
Verification of the PII-scrubbing engine of `process_chatlog_py38.py`.

Texts are modelled as `List Char`.  The Python regular-expression engine is
modelled by a small backtracking matcher over an abstract syntax of the exact
patterns the program uses (all quantifiers in those patterns are over
single-character classes or bounded repetitions, which the syntax reflects).
All definitions are structural recursions, so concrete runs reduce inside the
kernel.
-/

/-- ASCII digit test (Python `\d` on the program's ASCII data). -/
def isDig (c : Char) : Bool := Nat.ble 48 c.toNat && Nat.ble c.toNat 57

/-- ASCII letter test (`[A-Za-z]`). -/
def isAl (c : Char) : Bool :=
  (Nat.ble 65 c.toNat && Nat.ble c.toNat 90) || (Nat.ble 97 c.toNat && Nat.ble c.toNat 122)

/-- Python `\s` on ASCII data: space, tab, newline, carriage return, vertical tab, form feed. -/
def isSpc (c : Char) : Bool :=
  c == ' ' || c == '\t' || c == '\n' || c == '\r' || c.toNat == 11 || c.toNat == 12

/-- Python word character (for `\b`): letter, digit or underscore. -/
def isWordC (c : Char) : Bool := isAl c || isDig c || c == '_'

/-- ASCII lower-casing, used to bake `re.IGNORECASE` into literal classes. -/
def lowC (c : Char) : Char :=
  if Nat.ble 65 c.toNat && Nat.ble c.toNat 90 then Char.ofNat (c.toNat + 32) else c

/-- ASCII upper-casing (Python `str.upper()` on the program's data). -/
def upC (c : Char) : Char :=
  if Nat.ble 97 c.toNat && Nat.ble c.toNat 122 then Char.ofNat (c.toNat - 32) else c

/-- `isPre pat s` holds when `pat` is a prefix of `s` (decidable, executable). -/
def isPre : List Char → List Char → Bool
  | [], _ => true
  | _ :: _, [] => false
  | a :: as, b :: bs => a == b && isPre as bs

/-- `hasSub pat s`: `pat` occurs as a contiguous substring of `s` (Python `pat in s`). -/
def hasSub (pat : List Char) : List Char → Bool
  | [] => isPre pat []
  | c :: rest => isPre pat (c :: rest) || hasSub pat rest

/-- Python `s.replace(old, new, 1)`: replace the leftmost occurrence of `pat` (if any). -/
def replace1 (pat repl : List Char) : List Char → List Char
  | [] => []
  | c :: rest =>
    if isPre pat (c :: rest) then repl ++ (c :: rest).drop pat.length
    else c :: replace1 pat repl rest

/-- Number of positions of `s` at which `pat` occurs. -/
def occCount (pat : List Char) : List Char → Nat
  | [] => if isPre pat [] then 1 else 0
  | c :: rest => (if isPre pat (c :: rest) then 1 else 0) + occCount pat rest

/-- Concatenation of the images of `f` (list bind, kept local and executable). -/
def bindL (l : List α) (f : α → List β) : List β :=
  match l with
  | [] => []
  | a :: as => f a ++ bindL as f

/-- Syntax of the regular expressions the program uses.  `cls` is a one-character
class; `starC`/`plusC`/`repC` are its quantified forms (the program's patterns
quantify only over one-character classes); `wb` is `\b`. -/
inductive RE where
  | eps : RE
  | cls : (Char → Bool) → RE
  | seq : RE → RE → RE
  | alt : RE → RE → RE
  | opt : RE → RE
  | starC : (Char → Bool) → RE
  | plusC : (Char → Bool) → RE
  | repC : (Char → Bool) → Nat → Nat → RE
  | wb : RE

/-- `\b` at a point: the previous character (if any) and next character (if any)
disagree about being word characters. -/
def wbHolds (p : Option Char) (s : List Char) : Bool :=
  (match p with | none => false | some c => isWordC c)
    != (match s with | [] => false | c :: _ => isWordC c)

/-- All ways a greedy `cls*` can proceed, longest first.  Results are pairs of
the new previous-character and the remaining suffix. -/
def starT (q : Char → Bool) (p : Option Char) : List Char → List (Option Char × List Char)
  | [] => [(p, [])]
  | c :: rest =>
    if q c then starT q (some c) rest ++ [(p, c :: rest)] else [(p, c :: rest)]

/-- All ways a greedy `cls{m,n}` can proceed, longest first. -/
def repT (q : Char → Bool) : Nat → Nat → Option Char → List Char → List (Option Char × List Char)
  | m, 0, p, s => if m == 0 then [(p, s)] else []
  | m, _ + 1, p, [] => if m == 0 then [(p, [])] else []
  | m, n + 1, p, c :: rest =>
    if q c then
      repT q (m - 1) n (some c) rest ++ (if m == 0 then [(p, c :: rest)] else [])
    else if m == 0 then [(p, c :: rest)] else []

/-- Backtracking matcher.  `runRE r p s` lists every way `r` can match a prefix
of `s` (given previous character `p`), in Python's backtracking preference
order: greedy quantifiers longest first, alternatives left first.  Each result
is the previous-character after the match together with the unmatched suffix. -/
def runRE : RE → Option Char → List Char → List (Option Char × List Char)
  | .eps, p, s => [(p, s)]
  | .cls q, _, s =>
    match s with
    | [] => []
    | c :: rest => if q c then [(some c, rest)] else []
  | .seq a b, p, s => bindL (runRE a p s) (fun pr => runRE b pr.1 pr.2)
  | .alt a b, p, s => runRE a p s ++ runRE b p s
  | .opt a, p, s => runRE a p s ++ [(p, s)]
  | .starC q, p, s => starT q p s
  | .plusC q, _, s =>
    match s with
    | [] => []
    | c :: rest => if q c then starT q (some c) rest else []
  | .repC q m n, p, s => repT q m n p s
  | .wb, p, s => if wbHolds p s then [(p, s)] else []

/-- Attach a character to the front of the first gap of a split result. -/
def gapCons (c : Char) : List (List Char × List Char) × List Char →
    List (List Char × List Char) × List Char
  | ([], tl) => ([], c :: tl)
  | ((g, m) :: ms, tl) => ((c :: g, m) :: ms, tl)

/-- Left-to-right scan of `re.sub`: split `s` into gap/match pairs and a final
gap.  At each position the matcher's preferred match is taken (if non-empty)
and the scan resumes after it; otherwise the scan advances one character.
`fuel ≥ s.length` makes the recursion structural. -/
def splitM (r : RE) : Nat → Option Char → List Char → List (List Char × List Char) × List Char
  | _, _, [] => ([], [])
  | 0, _, s => ([], s)
  | fuel + 1, p, c :: rest =>
    match (runRE r p (c :: rest)).head? with
    | some pr =>
      if pr.2.length < (c :: rest).length then
        (([], (c :: rest).take ((c :: rest).length - pr.2.length)) ::
            (splitM r fuel pr.1 pr.2).1,
          (splitM r fuel pr.1 pr.2).2)
      else gapCons c (splitM r fuel (some c) rest)
    | none => gapCons c (splitM r fuel (some c) rest)

/-- Reassemble a split, keeping the matches: yields the original string. -/
def joinSM : List (List Char × List Char) → List Char → List Char
  | [], tl => tl
  | (g, m) :: ms, tl => g ++ m ++ joinSM ms tl

/-- Reassemble a split, replacing every match by `repl` (global substitution). -/
def subJoin (repl : List Char) : List (List Char × List Char) → List Char → List Char
  | [], tl => tl
  | (g, _) :: ms, tl => g ++ repl ++ subJoin repl ms tl

/-- Tail-recursive list length (kernel-friendly on long texts). -/
def lenA : List α → Nat → Nat
  | [], n => n
  | _ :: as, n => lenA as (n + 1)

/-- Length of a list via `lenA`. -/
def lenT (l : List α) : Nat := lenA l 0

/-- Tail-recursive form of `splitM` (same scan, accumulator style, so that long
concrete texts evaluate with constant stack).  `n` is the length of the current
suffix, `g` the current gap reversed, `acc` the completed pairs reversed. -/
def splitMA (r : RE) : Nat → Nat → Option Char → List Char → List Char →
    List (List Char × List Char) → List (List Char × List Char) × List Char
  | _, _, _, [], g, acc => (acc.reverse, g.reverse)
  | 0, _, _, s, g, acc => (acc.reverse, g.reverse ++ s)
  | _ + 1, 0, _, s, g, acc => (acc.reverse, g.reverse ++ s)
  | fuel + 1, n + 1, p, c :: rest, g, acc =>
    match (runRE r p (c :: rest)).head? with
    | some pr =>
      if lenT pr.2 < n + 1 then
        splitMA r fuel (lenT pr.2) pr.1 pr.2 []
          ((g.reverse, (c :: rest).take (n + 1 - lenT pr.2)) :: acc)
      else splitMA r fuel n (some c) rest (c :: g) acc
    | none => splitMA r fuel n (some c) rest (c :: g) acc

/-- `re.sub(r, repl, s)` for the program's constant-replacement rules. -/
def reSub (r : RE) (repl s : List Char) : List Char :=
  match splitMA r (lenT s) (lenT s) none s [] [] with
  | (ms, tl) => subJoin repl ms tl

/-- The decimal digit characters. -/
def digitCh : Nat → Char
  | 0 => '0' | 1 => '1' | 2 => '2' | 3 => '3' | 4 => '4'
  | 5 => '5' | 6 => '6' | 7 => '7' | 8 => '8' | _ => '9'

/-- Decimal representation of `n`, most significant digit first, via fuel
(`fuel ≥ n` suffices); structural so it reduces in the kernel. -/
def natStrAux : Nat → Nat → List Char
  | 0, n => [digitCh n]
  | fuel + 1, n =>
    if n < 10 then [digitCh n] else natStrAux fuel (n / 10) ++ [digitCh (n % 10)]

/-- Decimal representation of `n` (Python `"{}".format(n)` for a nonnegative int). -/
def natStr (n : Nat) : List Char := natStrAux n n

/-- The fixed placeholder stem `"@@TEMP_CC_PLACEHOLDER_"`. -/
def phStem : List Char := "@@TEMP_CC_PLACEHOLDER_".toList

/-- The placeholder token for index `i`: `"@@TEMP_CC_PLACEHOLDER_{i}@@"`. -/
def phTok (i : Nat) : List Char := phStem ++ natStr i ++ "@@".toList

/-- The redaction marker `"***"`. -/
def starMark : List Char := "***".toList

/-- The restore-anomaly sentinel `"[UNEXPECTED_CC_PLACEHOLDER]"`. -/
def sentinel : List Char := "[UNEXPECTED_CC_PLACEHOLDER]".toList

/-- A literal character with `re.IGNORECASE` baked in. -/
def chi (c : Char) : RE := .cls (fun x => lowC x == lowC c)

/-- Sequence of regular expressions. -/
def cat (l : List RE) : RE := l.foldr .seq .eps

/-- Case-insensitive literal string. -/
def litS (s : String) : RE := cat (s.toList.map chi)

/-- `POSTAL_CODE_PATTERN = [A-Za-z]\s*\d\s*[A-Za-z]\s*[ -]?\s*\d\s*[A-Za-z]\s*\d`. -/
def POSTAL_CODE_PATTERN : RE :=
  cat [.cls isAl, .starC isSpc, .cls isDig, .starC isSpc, .cls isAl, .starC isSpc,
    .opt (.cls (fun c => c == ' ' || c == '-')), .starC isSpc, .cls isDig,
    .starC isSpc, .cls isAl, .starC isSpc, .cls isDig]

/-- `PASSPORT_PATTERN = \b([A-Za-z]{2}\s*\d{6})\b`. -/
def PASSPORT_PATTERN : RE :=
  cat [.wb, .repC isAl 2 2, .starC isSpc, .repC isDig 6 6, .wb]

/-- `SIN_PATTERN = (\d{3}\s*\d{3}\s*\d{3}|\d{3}\D*\d{3}\D*\d{3})`. -/
def SIN_PATTERN : RE :=
  .alt
    (cat [.repC isDig 3 3, .starC isSpc, .repC isDig 3 3, .starC isSpc, .repC isDig 3 3])
    (cat [.repC isDig 3 3, .starC (fun c => !isDig c), .repC isDig 3 3,
      .starC (fun c => !isDig c), .repC isDig 3 3])

/-- `PHONE_PATTERN_1 = (\+\d{1,2}\s?)?1?\-?\.\s?\(?\d{3}\)?[\s.-]?\d{3}[\s.-]?\d{4}`. -/
def PHONE_PATTERN_1 : RE :=
  cat [.opt (cat [chi '+', .repC isDig 1 2, .opt (.cls isSpc)]),
    .opt (chi '1'), .opt (chi '-'), chi '.', .opt (.cls isSpc), .opt (chi '('),
    .repC isDig 3 3, .opt (chi ')'), .opt (.cls (fun c => isSpc c || c == '.' || c == '-')),
    .repC isDig 3 3, .opt (.cls (fun c => isSpc c || c == '.' || c == '-')),
    .repC isDig 4 4]

/-- The class `[02-9]`. -/
def cl029 : RE := .cls (fun c => c == '0' || (Nat.ble 50 c.toNat && Nat.ble c.toNat 57))

/-- The class `[02-8]`. -/
def cl028 : RE := .cls (fun c => c == '0' || (Nat.ble 50 c.toNat && Nat.ble c.toNat 56))

/-- The class `[2-9]`. -/
def cl29 : RE := .cls (fun c => Nat.ble 50 c.toNat && Nat.ble c.toNat 57)

/-- The area-code alternation `([2-9]1[02-9]|[2-9][02-8]1|[2-9][02-8][02-9])` of
`PHONE_PATTERN_2`. -/
def phoneArea : RE :=
  .alt (cat [cl29, chi '1', cl029]) (.alt (cat [cl29, cl028, chi '1']) (cat [cl29, cl028, cl029]))

/-- The exchange alternation `([2-9]1[02-9]|[2-9][02-9]1|[2-9][02-9]{2})` of
`PHONE_PATTERN_2`. -/
def phoneExch : RE :=
  .alt (cat [cl29, chi '1', cl029])
    (.alt (cat [cl29, cl029, chi '1'])
      (cat [cl29, .repC (fun c => c == '0' || (Nat.ble 50 c.toNat && Nat.ble c.toNat 57)) 2 2]))

/-- The class `[.-]`. -/
def clDotDash : RE := .cls (fun c => c == '.' || c == '-')

/-- `PHONE_PATTERN_2`, the long NANP shape
`(?:(?:\+?1\s*(?:[.-]\s*)?)?(?:\(\s*(A)\s*\)|(A))\s*(?:[.-]\s*)?)?(B)\s*(?:[.-]\s*)?([0-9]{4})(?:\s*(?:#|x\.?|ext\.?|extension)\s*(\d+))?`. -/
def PHONE_PATTERN_2 : RE :=
  cat [.opt (cat [.opt (cat [.opt (chi '+'), chi '1', .starC isSpc,
        .opt (cat [clDotDash, .starC isSpc])]),
      .alt (cat [chi '(', .starC isSpc, phoneArea, .starC isSpc, chi ')']) phoneArea,
      .starC isSpc, .opt (cat [clDotDash, .starC isSpc])]),
    phoneExch, .starC isSpc, .opt (cat [clDotDash, .starC isSpc]), .repC isDig 4 4,
    .opt (cat [.starC isSpc,
      .alt (chi '#') (.alt (cat [chi 'x', .opt (chi '.')])
        (.alt (cat [litS "ext", .opt (chi '.')]) (litS "extension"))),
      .starC isSpc, .plusC isDig])]

/-- The e-mail local-part class `[a-zA-Z0-9_\-\.]`. -/
def nameCl (c : Char) : Bool := isAl c || isDig c || c == '_' || c == '-' || c == '.'

/-- The e-mail domain class `[\sa-zA-Z0-9_\-\.]`. -/
def domCl (c : Char) : Bool := isSpc c || isAl c || isDig c || c == '_' || c == '-' || c == '.'

/-- `EMAIL_PATTERN = ([a-zA-Z0-9_\-\.]+)\s*@([\sa-zA-Z0-9_\-\.]+)[\.\,]([a-zA-Z]{1,5})`. -/
def EMAIL_PATTERN : RE :=
  cat [.plusC nameCl, .starC isSpc, chi '@', .plusC domCl,
    .cls (fun c => c == '.' || c == ','), .repC isAl 1 5]

/-- The date separator class: dash, slash or dot. -/
def clDateSep : RE := .cls (fun c => c == '-' || c == '/' || c == '.')

/-- `DOB_PATTERN`: day/month/year or year/month/day digit groups joined by
dash, slash or dot separators, with word boundaries on both sides. -/
def DOB_PATTERN : RE :=
  cat [.wb,
    .alt (cat [.repC isDig 1 2, clDateSep, .repC isDig 1 2, clDateSep, .repC isDig 2 4])
      (cat [.repC isDig 4 4, clDateSep, .repC isDig 1 2, clDateSep, .repC isDig 1 2]),
    .wb]

/-- `PO_BOX_PATTERN = \b(?:P(?:ost(?:al)?)?\.?\s*O(?:ffice)?\.?\s*Box|General Delivery)\s+\d+\b`. -/
def PO_BOX_PATTERN : RE :=
  cat [.wb,
    .alt (cat [chi 'P', .opt (cat [litS "ost", .opt (litS "al")]), .opt (chi '.'),
        .starC isSpc, chi 'O', .opt (litS "ffice"), .opt (chi '.'), .starC isSpc, litS "Box"])
      (litS "General Delivery"),
    .plusC isSpc, .plusC isDig, .wb]

/-- The street-address middle class `[A-Za-z0-9\s.-]`. -/
def midCl (c : Char) : Bool := isAl c || isDig c || isSpc c || c == '.' || c == '-'

/-- The street-type alternation of `ADDRESS_PATTERN`, in source order. -/
def streetTypes : RE :=
  [litS "Street", litS "St", litS "Avenue", litS "Ave", litS "Road", litS "Rd",
    litS "Lane", litS "Ln", litS "Drive", litS "Dr", litS "Boulevard", litS "Blvd",
    litS "Crescent", litS "Cres", litS "Court", litS "Ct"].foldr .alt (.cls (fun _ => false))

/-- `ADDRESS_PATTERN = \b[A-Za-z0-9]+\s+[A-Za-z0-9\s.-]+\s+(?:Street|St|...|Ct)\b`. -/
def ADDRESS_PATTERN : RE :=
  cat [.wb, .plusC (fun c => isAl c || isDig c), .plusC isSpc, .plusC midCl,
    .plusC isSpc, streetTypes, .wb]

/-- `TEMP_CREDIT_CARD_IGNORE_PATTERN = \b(?:\d{4}[ -]?\d{4}[ -]?\d{4}[ -]?\d{1,4}|\d{13,16})\b`. -/
def TEMP_CREDIT_CARD_IGNORE_PATTERN : RE :=
  cat [.wb,
    .alt (cat [.repC isDig 4 4, .opt (.cls (fun c => c == ' ' || c == '-')),
        .repC isDig 4 4, .opt (.cls (fun c => c == ' ' || c == '-')),
        .repC isDig 4 4, .opt (.cls (fun c => c == ' ' || c == '-')),
        .repC isDig 1 4])
      (.repC isDig 13 16),
    .wb]

/-- Reassemble a split, replacing the `i`-th match (0-based, left to right) by
the placeholder token for `i`: the effect of `cc_match_replacer` inside
`re.sub`. -/
def shJoin : Nat → List (List Char × List Char) → List Char → List Char
  | _, [], tl => tl
  | i, (g, _) :: ms, tl => g ++ phTok i ++ shJoin (i + 1) ms tl

/-- The shielding stage of `scrub_pii`: replace each credit-card-like match by
its indexed placeholder and record the matched literals in order
(`cc_matches`). -/
def shield (s : List Char) : List Char × List (List Char) :=
  match splitMA TEMP_CREDIT_CARD_IGNORE_PATTERN (lenT s) (lenT s) none s [] [] with
  | (ms, tl) => (shJoin 0 ms tl, ms.map Prod.snd)

/-- The rule catalog, in the order the nine `re.sub` lines run. -/
def ruleList : List RE :=
  [POSTAL_CODE_PATTERN, PASSPORT_PATTERN, SIN_PATTERN, PHONE_PATTERN_1,
    PHONE_PATTERN_2, EMAIL_PATTERN, DOB_PATTERN, PO_BOX_PATTERN, ADDRESS_PATTERN]

/-- The nine rule substitutions, each on the output of the previous one. -/
def applyRules (t : List Char) : List Char :=
  ruleList.foldl (fun tx r => reSub r starMark tx) t

/-- An entity span as the recognizer reports it: `start_char`, `end_char`,
`label_`. -/
structure Ent where
  s : Nat
  e : Nat
  label : List Char
deriving DecidableEq

/-- A recognizer: maps the text to entity spans, or fails (models a raised
exception). -/
def Recog : Type := List Char → Except Unit (List Ent)

/-- The labels whose spans are redacted. -/
def keepLabels : List (List Char) :=
  ["PERSON".toList, "ORG".toList, "GPE".toList, "LOC".toList]

/-- The mislabel-prone labels of the acronym guard. -/
def skipLabels : List (List Char) :=
  ["ORG".toList, "PERSON".toList, "PRODUCT".toList, "WORK_OF_ART".toList,
    "LAW".toList, "EVENT".toList]

/-- The filter applied to each recognized entity: drop `"PII"`/`"DOB"`
mislabels, keep person/org/place/location spans.  `(t.drop en.s).take
(en.e - en.s)` is the Python slice `text[start:end]`, the span's covered
text. -/
def entKeep (t : List Char) (en : Ent) : Bool :=
  if (((t.drop en.s).take (en.e - en.s)).map upC == "PII".toList
        || ((t.drop en.s).take (en.e - en.s)).map upC == "DOB".toList)
      && skipLabels.contains en.label then
    false
  else keepLabels.contains en.label

/-- Stable insertion (from the right) for descending sort by start offset. -/
def insDesc (x : Ent) : List Ent → List Ent
  | [] => [x]
  | y :: ys => if x.s < y.s then y :: insDesc x ys else x :: y :: ys

/-- Python's stable `sort(reverse=True, key=lambda x: x[0])`. -/
def sortDesc (l : List Ent) : List Ent := l.foldr insDesc []

/-- One entity rewrite: `text = text[:start] + "***" + text[end:]`. -/
def entReplace (tx : List Char) (en : Ent) : List Char :=
  tx.take en.s ++ starMark ++ tx.drop en.e

/-- The entity stage: with no recognizer, the identity; with one, either the
caught-exception path (text unchanged) or filter, sort descending by start and
rewrite each surviving span. -/
def entityStage (nlp : Option Recog) (t : List Char) : List Char :=
  match nlp with
  | none => t
  | some f =>
    match f t with
    | .error _ => t
    | .ok ents => (sortDesc (ents.filter (entKeep t))).foldl entReplace t

/-- The replacement the restore loop uses at index `idx`: the recorded literal
when `idx < len(cc_matches)`, the anomaly sentinel otherwise. -/
def replAt (ccs : List (List Char)) (idx : Nat) : List Char :=
  if h : idx < ccs.length then ccs.get ⟨idx, h⟩ else sentinel

/-- The restore `while` loop: search for the placeholder of the current index;
if present, replace its leftmost occurrence and continue with the next index,
otherwise stop.  `none` models non-termination (fuel exhausted before the
loop's own exit). -/
def restoreLoop : Nat → Nat → List (List Char) → List Char → Option (List Char)
  | 0, _, _, _ => none
  | fuel + 1, idx, ccs, text =>
    if hasSub (phTok idx) text then
      restoreLoop fuel (idx + 1) ccs (replace1 (phTok idx) (replAt ccs idx) text)
    else some text

/-- A cell value of the scrubbed column: a missing marker (`NaN`/`None`, i.e.
`pd.isna`) or a text. -/
inductive Cell where
  | na : Cell
  | txt : List Char → Cell
deriving DecidableEq

/-- `scrub_pii` on a text value: shield, nine rules, entity stage, restore.
The fuel given to the restore loop is one more than the number of placeholder
stems in the text it scans, which the termination theorem shows suffices. -/
def scrubText (nlp : Option Recog) (s : List Char) : Option (List Char) :=
  restoreLoop (occCount phStem (entityStage nlp (applyRules (shield s).1)) + 1) 0
    (shield s).2 (entityStage nlp (applyRules (shield s).1))

/-- `scrub_pii`: missing values pass through; texts run the four-stage
pipeline.  `none` would mean the restore loop failed to terminate. -/
def scrub_pii (nlp : Option Recog) : Cell → Option Cell
  | .na => some .na
  | .txt s => (scrubText nlp s).map .txt

/-! ### Basic facts about the string helpers -/

theorem lenA_eq (l : List α) : ∀ n, lenA l n = l.length + n := by
  induction l with
  | nil => intro n; simp [lenA]
  | cons a as ih => intro n; simp [lenA, ih]; omega

theorem lenT_eq (l : List α) : lenT l = l.length := by
  simp [lenT, lenA_eq]

theorem isPre_iff {pat s : List Char} : isPre pat s = true ↔ ∃ v, s = pat ++ v := by
  induction pat generalizing s with
  | nil => simp [isPre]
  | cons p ps ih =>
    cases s with
    | nil => simp [isPre]
    | cons c cs =>
      simp only [isPre, Bool.and_eq_true, beq_iff_eq, ih, List.cons_append,
        List.cons.injEq]
      constructor
      · rintro ⟨rfl, v, rfl⟩; exact ⟨v, rfl, rfl⟩
      · rintro ⟨v, rfl, rfl⟩; exact ⟨rfl, v, rfl⟩

theorem isPre_append (pat v : List Char) : isPre pat (pat ++ v) = true :=
  isPre_iff.mpr ⟨v, rfl⟩

theorem isPre_length {pat s : List Char} (h : isPre pat s = true) : pat.length ≤ s.length := by
  rcases isPre_iff.mp h with ⟨v, rfl⟩
  simp

theorem isPre_append_iff (pat : List Char) : ∀ x y : List Char,
    isPre pat (x ++ y) = true ↔
      isPre (pat.take x.length) x = true ∧ isPre (pat.drop x.length) y = true := by
  induction pat with
  | nil => intro x y; simp [isPre]
  | cons p ps ih =>
    intro x y
    cases x with
    | nil => simp [isPre]
    | cons c cs =>
      simp only [List.cons_append, isPre, Bool.and_eq_true, List.length_cons,
        List.take_succ_cons, List.drop_succ_cons, List.append_eq, ih cs y]
      tauto

theorem isPre_mono {pat u : List Char} (w : List Char) (h : isPre pat u = true) :
    isPre pat (u ++ w) = true := by
  rcases isPre_iff.mp h with ⟨v, rfl⟩
  rw [List.append_assoc]; exact isPre_append _ _

theorem hasSub_iff {pat s : List Char} : hasSub pat s = true ↔ ∃ u v, s = u ++ pat ++ v := by
  induction s with
  | nil =>
    simp only [hasSub]
    rw [isPre_iff]
    constructor
    · rintro ⟨v, h⟩; exact ⟨[], v, h⟩
    · rintro ⟨u, v, h⟩
      rcases List.append_eq_nil.mp (show u ++ (pat ++ v) = [] by simpa using h.symm) with
        ⟨rfl, h2⟩
      exact ⟨v, h2.symm⟩
  | cons c rest ih =>
    simp only [hasSub, Bool.or_eq_true, ih]
    constructor
    · rintro (h | ⟨u, v, rfl⟩)
      · rcases isPre_iff.mp h with ⟨v, hv⟩; exact ⟨[], v, by simpa using hv⟩
      · exact ⟨c :: u, v, rfl⟩
    · rintro ⟨u, v, hu⟩
      cases u with
      | nil => left; exact hu ▸ isPre_append _ _
      | cons c' u' =>
        right
        rcases List.cons.injEq .. ▸ hu with ⟨rfl, hr⟩
        exact ⟨u', v, hr⟩

theorem hasSub_of_append (pat u v : List Char) : hasSub pat (u ++ pat ++ v) = true :=
  hasSub_iff.mpr ⟨u, v, rfl⟩

theorem replace1_of_not {pat repl s : List Char} (h : hasSub pat s = false) :
    replace1 pat repl s = s := by
  induction s with
  | nil => rfl
  | cons c rest ih =>
    simp only [hasSub, Bool.or_eq_false_iff] at h
    simp [replace1, h.1, ih h.2]

theorem replace1_spec (repl : List Char) {pat s : List Char} (hp : pat ≠ [])
    (h : hasSub pat s = true) :
    ∃ u v, s = u ++ pat ++ v ∧ replace1 pat repl s = u ++ repl ++ v ∧
      ∀ u' v', s = u' ++ pat ++ v' → u.length ≤ u'.length := by
  induction s with
  | nil =>
    exfalso
    rcases hasSub_iff.mp h with ⟨u, v, hs⟩
    rcases List.append_eq_nil.mp (show u ++ (pat ++ v) = [] by simpa using hs.symm) with
      ⟨rfl, h2⟩
    exact hp (List.append_eq_nil.mp h2).1
  | cons c rest ih =>
    by_cases hp : isPre pat (c :: rest) = true
    · rcases isPre_iff.mp hp with ⟨v, hv⟩
      refine ⟨[], v, by simpa using hv, ?_, by intros; simp⟩
      simp only [replace1, hp, if_true, List.nil_append]
      congr 1
      rw [hv, List.drop_append_of_le_length (le_refl _)]
      simp
    · have hrest : hasSub pat rest = true := by
        rcases hasSub_iff.mp h with ⟨u, v, hu⟩
        cases u with
        | nil => exact absurd (hu ▸ isPre_append pat v) (by simpa using hp)
        | cons c' u' =>
          rcases List.cons.injEq .. ▸ hu with ⟨rfl, hr⟩
          exact hasSub_iff.mpr ⟨u', v, hr⟩
      rcases ih hrest with ⟨u, v, hs, hr, hmin⟩
      refine ⟨c :: u, v, by simp [hs], ?_, ?_⟩
      · simp [replace1, hp, hr]
      · rintro u' v' hu'
        cases u' with
        | nil => exact absurd (hu' ▸ isPre_append pat v') (by simpa using hp)
        | cons c' u₀ =>
          rcases List.cons.injEq .. ▸ hu' with ⟨rfl, hr'⟩
          simpa using Nat.succ_le_succ (hmin u₀ v' hr')

/-! ### The matcher consumes a prefix made of its classes' characters -/

theorem mem_bindL {l : List α} {f : α → List β} {b : β} :
    b ∈ bindL l f ↔ ∃ a ∈ l, b ∈ f a := by
  induction l with
  | nil => simp [bindL]
  | cons x xs ih => simp [bindL, ih]

theorem head?_mem {l : List α} {a : α} (h : l.head? = some a) : a ∈ l := by
  cases l with
  | nil => simp at h
  | cons x xs => simp at h; simp [h]

/-- The character last consumed, given the previous character and the consumed
prefix. -/
def lastD (p : Option Char) : List Char → Option Char
  | [] => p
  | c :: rest => lastD (some c) rest

theorem lastD_append (p : Option Char) (u v : List Char) :
    lastD p (u ++ v) = lastD (lastD p u) v := by
  induction u generalizing p with
  | nil => rfl
  | cons c cs ih => simp [lastD, ih]

/-- `charsOK r c`: `c` is accepted by some one-character class of `r` (an upper
bound for the characters a match of `r` can consume). -/
def charsOK : RE → Char → Bool
  | .eps, _ => false
  | .cls q, c => q c
  | .seq a b, c => charsOK a c || charsOK b c
  | .alt a b, c => charsOK a c || charsOK b c
  | .opt a, c => charsOK a c
  | .starC q, c => q c
  | .plusC q, c => q c
  | .repC q _ _, c => q c
  | .wb, _ => false

theorem starT_decomp {q : Char → Bool} {p : Option Char} {s : List Char}
    {pr : Option Char × List Char} (h : pr ∈ starT q p s) :
    ∃ u, s = u ++ pr.2 ∧ pr.1 = lastD p u ∧ ∀ c ∈ u, q c = true := by
  induction s generalizing p with
  | nil =>
    simp only [starT, List.mem_singleton] at h
    exact ⟨[], by simp [h], by simp [h, lastD], by simp⟩
  | cons c rest ih =>
    simp only [starT] at h
    by_cases hq : q c = true
    · rw [if_pos hq] at h
      rcases List.mem_append.mp h with h1 | h2
      · rcases ih h1 with ⟨u, hu1, hu2, hu3⟩
        refine ⟨c :: u, by simp [hu1], by simpa [lastD] using hu2, ?_⟩
        intro d hd
        rcases List.mem_cons.mp hd with rfl | hd2
        · exact hq
        · exact hu3 d hd2
      · simp only [List.mem_singleton] at h2
        exact ⟨[], by simp [h2], by simp [h2, lastD], by simp⟩
    · rw [if_neg hq] at h
      simp only [List.mem_singleton] at h
      exact ⟨[], by simp [h], by simp [h, lastD], by simp⟩

theorem repT_decomp {q : Char → Bool} {m n : Nat} {p : Option Char} {s : List Char}
    {pr : Option Char × List Char} (h : pr ∈ repT q m n p s) :
    ∃ u, s = u ++ pr.2 ∧ pr.1 = lastD p u ∧ ∀ c ∈ u, q c = true := by
  induction n generalizing m p s with
  | zero =>
    simp only [repT] at h
    split at h
    · simp only [List.mem_singleton] at h
      exact ⟨[], by simp [h], by simp [h, lastD], by simp⟩
    · simp at h
  | succ n ih =>
    cases s with
    | nil =>
      simp only [repT] at h
      split at h
      · simp only [List.mem_singleton] at h
        exact ⟨[], by simp [h], by simp [h, lastD], by simp⟩
      · simp at h
    | cons c rest =>
      simp only [repT] at h
      by_cases hq : q c = true
      · rw [if_pos hq] at h
        rcases List.mem_append.mp h with h1 | h2
        · rcases ih h1 with ⟨u, hu1, hu2, hu3⟩
          refine ⟨c :: u, by simp [hu1], by simpa [lastD] using hu2, ?_⟩
          intro d hd
          rcases List.mem_cons.mp hd with rfl | hd2
          · exact hq
          · exact hu3 d hd2
        · split at h2
          · simp only [List.mem_singleton] at h2
            exact ⟨[], by simp [h2], by simp [h2, lastD], by simp⟩
          · simp at h2
      · rw [if_neg hq] at h
        split at h
        · simp only [List.mem_singleton] at h
          exact ⟨[], by simp [h], by simp [h, lastD], by simp⟩
        · simp at h

theorem runRE_decomp {r : RE} {p : Option Char} {s : List Char}
    {pr : Option Char × List Char} (h : pr ∈ runRE r p s) :
    ∃ u, s = u ++ pr.2 ∧ pr.1 = lastD p u ∧ ∀ c ∈ u, charsOK r c = true := by
  induction r generalizing p s pr with
  | eps =>
    simp only [runRE, List.mem_singleton] at h
    exact ⟨[], by simp [h], by simp [h, lastD], by simp⟩
  | cls q =>
    cases s with
    | nil => simp [runRE] at h
    | cons c rest =>
      simp only [runRE] at h
      split at h
      · simp only [List.mem_singleton] at h
        refine ⟨[c], by simp [h], by simp [h, lastD], ?_⟩
        intro d hd
        rcases List.mem_singleton.mp hd with rfl
        simpa [charsOK] using by assumption
      · simp at h
  | seq a b iha ihb =>
    simp only [runRE, mem_bindL] at h
    rcases h with ⟨pr', hpr', hb⟩
    rcases iha hpr' with ⟨u1, h1, h2, h3⟩
    rcases ihb hb with ⟨u2, g1, g2, g3⟩
    refine ⟨u1 ++ u2, ?_, ?_, ?_⟩
    · rw [h1, g1, List.append_assoc]
    · rw [lastD_append, ← h2, g2]
    · intro d hd
      rcases List.mem_append.mp hd with hd1 | hd2
      · simp only [charsOK, Bool.or_eq_true]; exact Or.inl (h3 d hd1)
      · simp only [charsOK, Bool.or_eq_true]; exact Or.inr (g3 d hd2)
  | alt a b iha ihb =>
    simp only [runRE] at h
    rcases List.mem_append.mp h with h1 | h2
    · rcases iha h1 with ⟨u, h1, h2, h3⟩
      refine ⟨u, h1, h2, fun d hd => ?_⟩
      simp only [charsOK, Bool.or_eq_true]; exact Or.inl (h3 d hd)
    · rcases ihb h2 with ⟨u, h1, h2, h3⟩
      refine ⟨u, h1, h2, fun d hd => ?_⟩
      simp only [charsOK, Bool.or_eq_true]; exact Or.inr (h3 d hd)
  | opt a iha =>
    simp only [runRE] at h
    rcases List.mem_append.mp h with h1 | h2
    · exact iha h1
    · simp only [List.mem_singleton] at h2
      exact ⟨[], by simp [h2], by simp [h2, lastD], by simp⟩
  | starC q => exact starT_decomp h
  | plusC q =>
    cases s with
    | nil => simp [runRE] at h
    | cons c rest =>
      simp only [runRE] at h
      split at h
      · rcases starT_decomp h with ⟨u, hu1, hu2, hu3⟩
        refine ⟨c :: u, by simp [hu1], by simpa [lastD] using hu2, ?_⟩
        intro d hd
        rcases List.mem_cons.mp hd with rfl | hd2
        · simpa [charsOK] using by assumption
        · exact hu3 d hd2
      · simp at h
  | repC q m n => exact repT_decomp h
  | wb =>
    simp only [runRE] at h
    split at h
    · simp only [List.mem_singleton] at h
      exact ⟨[], by simp [h], by simp [h, lastD], by simp⟩
    · simp at h

/-! ### The accumulator scan agrees with the plain scan -/

/-- Prepend characters to the first gap of a split result. -/
def prepG (u : List Char) : List (List Char × List Char) × List Char →
    List (List Char × List Char) × List Char
  | ([], tl) => ([], u ++ tl)
  | ((g, m) :: ms, tl) => ((u ++ g, m) :: ms, tl)

theorem prepG_nil (x : List (List Char × List Char) × List Char) : prepG [] x = x := by
  rcases x with ⟨ms, tl⟩
  cases ms with
  | nil => simp [prepG]
  | cons gm ms => rcases gm with ⟨g, m⟩; simp [prepG]

theorem prepG_gapCons (u : List Char) (c : Char)
    (x : List (List Char × List Char) × List Char) :
    prepG u (gapCons c x) = prepG (u ++ [c]) x := by
  rcases x with ⟨ms, tl⟩
  cases ms with
  | nil => simp [prepG, gapCons]
  | cons gm ms => rcases gm with ⟨g, m⟩; simp [prepG, gapCons]

theorem splitMA_eq (r : RE) : ∀ (fuel : Nat) (s : List Char) (n : Nat) (p : Option Char)
    (g : List Char) (acc : List (List Char × List Char)), n = s.length →
    splitMA r fuel n p s g acc =
      (acc.reverse ++ (prepG g.reverse (splitM r fuel p s)).1,
        (prepG g.reverse (splitM r fuel p s)).2) := by
  intro fuel
  induction fuel with
  | zero =>
    intro s n p g acc hn
    cases s with
    | nil => simp [splitMA, splitM, prepG]
    | cons c rest => simp [splitMA, splitM, prepG]
  | succ fuel ih =>
    intro s n p g acc hn
    cases s with
    | nil => simp [splitMA, splitM, prepG]
    | cons c rest =>
      subst hn
      simp only [List.length_cons]
      rw [show splitMA r (fuel + 1) (rest.length + 1) p (c :: rest) g acc =
        (match (runRE r p (c :: rest)).head? with
        | some pr =>
          if lenT pr.2 < rest.length + 1 then
            splitMA r fuel (lenT pr.2) pr.1 pr.2 []
              ((g.reverse, (c :: rest).take (rest.length + 1 - lenT pr.2)) :: acc)
          else splitMA r fuel rest.length (some c) rest (c :: g) acc
        | none => splitMA r fuel rest.length (some c) rest (c :: g) acc) from rfl]
      rw [show splitM r (fuel + 1) p (c :: rest) =
        (match (runRE r p (c :: rest)).head? with
        | some pr =>
          if pr.2.length < (c :: rest).length then
            (([], (c :: rest).take ((c :: rest).length - pr.2.length)) ::
                (splitM r fuel pr.1 pr.2).1,
              (splitM r fuel pr.1 pr.2).2)
          else gapCons c (splitM r fuel (some c) rest)
        | none => gapCons c (splitM r fuel (some c) rest)) from rfl]
      cases hh : (runRE r p (c :: rest)).head? with
      | none =>
        rw [ih rest rest.length (some c) (c :: g) acc rfl, prepG_gapCons]
        simp [List.reverse_cons]
      | some pr =>
        simp only [lenT_eq, List.length_cons]
        by_cases hlt : pr.2.length < rest.length + 1
        · rw [if_pos hlt, if_pos hlt, ih pr.2 pr.2.length pr.1 [] _ rfl]
          simp only [List.reverse_nil, prepG_nil, List.reverse_cons]
          rcases hsp : splitM r fuel pr.1 pr.2 with ⟨ms, tl⟩
          simp [prepG, List.append_assoc]
        · rw [if_neg hlt, if_neg hlt, ih rest rest.length (some c) (c :: g) acc rfl,
            prepG_gapCons]
          simp [List.reverse_cons]

theorem reSub_eq (r : RE) (repl s : List Char) :
    reSub r repl s =
      subJoin repl (splitM r s.length none s).1 (splitM r s.length none s).2 := by
  rw [reSub, lenT_eq, splitMA_eq r s.length s s.length none [] [] rfl]
  simp [prepG_nil]

theorem shield_eq (s : List Char) :
    shield s =
      (shJoin 0 (splitM TEMP_CREDIT_CARD_IGNORE_PATTERN s.length none s).1
          (splitM TEMP_CREDIT_CARD_IGNORE_PATTERN s.length none s).2,
        (splitM TEMP_CREDIT_CARD_IGNORE_PATTERN s.length none s).1.map Prod.snd) := by
  rw [shield, lenT_eq, splitMA_eq _ s.length s s.length none [] [] rfl]
  simp [prepG_nil]

/-! ### Structure of the scan's output -/

theorem splitM_join (r : RE) : ∀ (fuel : Nat) (p : Option Char) (s : List Char),
    joinSM (splitM r fuel p s).1 (splitM r fuel p s).2 = s := by
  intro fuel
  induction fuel with
  | zero =>
    intro p s
    cases s with
    | nil => simp [splitM, joinSM]
    | cons c rest => simp [splitM, joinSM]
  | succ fuel ih =>
    intro p s
    cases s with
    | nil => simp [splitM, joinSM]
    | cons c rest =>
      rw [show splitM r (fuel + 1) p (c :: rest) =
        (match (runRE r p (c :: rest)).head? with
        | some pr =>
          if pr.2.length < (c :: rest).length then
            (([], (c :: rest).take ((c :: rest).length - pr.2.length)) ::
                (splitM r fuel pr.1 pr.2).1,
              (splitM r fuel pr.1 pr.2).2)
          else gapCons c (splitM r fuel (some c) rest)
        | none => gapCons c (splitM r fuel (some c) rest)) from rfl]
      have hgap : ∀ x : List (List Char × List Char) × List Char,
          joinSM x.1 x.2 = rest → joinSM (gapCons c x).1 (gapCons c x).2 = c :: rest := by
        rintro ⟨ms, tl⟩ hx
        cases ms with
        | nil => simpa [gapCons, joinSM] using hx
        | cons gm ms =>
          rcases gm with ⟨g, m⟩
          simpa [gapCons, joinSM] using hx
      cases hh : (runRE r p (c :: rest)).head? with
      | none => exact hgap _ (ih (some c) rest)
      | some pr =>
        dsimp only
        by_cases hlt : pr.2.length < (c :: rest).length
        · rw [if_pos hlt]
          rcases runRE_decomp (head?_mem hh) with ⟨u, hu, -, -⟩
          simp only [joinSM, List.nil_append, ih pr.1 pr.2]
          rw [hu]
          have : (u ++ pr.2).length - pr.2.length = u.length := by simp
          rw [this, List.take_left]
        · rw [if_neg hlt]
          exact hgap _ (ih (some c) rest)

theorem splitM_matches (r : RE) : ∀ (fuel : Nat) (p : Option Char) (s : List Char)
    (g m : List Char), (g, m) ∈ (splitM r fuel p s).1 →
    m ≠ [] ∧ (∀ c ∈ m, charsOK r c = true) := by
  intro fuel
  induction fuel with
  | zero =>
    intro p s g m h
    cases s with
    | nil => simp [splitM] at h
    | cons c rest => simp [splitM] at h
  | succ fuel ih =>
    intro p s g m h
    cases s with
    | nil => simp [splitM] at h
    | cons c rest =>
      rw [show splitM r (fuel + 1) p (c :: rest) =
        (match (runRE r p (c :: rest)).head? with
        | some pr =>
          if pr.2.length < (c :: rest).length then
            (([], (c :: rest).take ((c :: rest).length - pr.2.length)) ::
                (splitM r fuel pr.1 pr.2).1,
              (splitM r fuel pr.1 pr.2).2)
          else gapCons c (splitM r fuel (some c) rest)
        | none => gapCons c (splitM r fuel (some c) rest)) from rfl] at h
      have hgap : ∀ x : List (List Char × List Char) × List Char,
          ((g, m) ∈ (gapCons c x).1) →
          (∃ g', (g', m) ∈ x.1) := by
        rintro ⟨ms, tl⟩ hx
        cases ms with
        | nil => simp [gapCons] at hx
        | cons gm ms =>
          rcases gm with ⟨g0, m0⟩
          simp only [gapCons, List.mem_cons, Prod.mk.injEq] at hx
          rcases hx with ⟨h1, h2⟩ | h3
          · exact ⟨g0, by simp [h2]⟩
          · exact ⟨g, by simp [h3]⟩
      cases hh : (runRE r p (c :: rest)).head? with
      | none =>
        rw [hh] at h
        dsimp only at h
        rcases hgap _ h with ⟨g', hg'⟩
        exact ih (some c) rest g' m hg'
      | some pr =>
        rw [hh] at h
        dsimp only at h
        by_cases hlt : pr.2.length < (c :: rest).length
        · rw [if_pos hlt] at h
          simp only [List.mem_cons, Prod.mk.injEq] at h
          rcases h with ⟨h1, h2⟩ | h3
          · rcases runRE_decomp (head?_mem hh) with ⟨u, hu, -, hchars⟩
            have hm : m = u := by
              rw [h2, hu]
              have hlen : (u ++ pr.2).length - pr.2.length = u.length := by simp
              rw [hlen, List.take_left]
            subst hm
            refine ⟨?_, hchars⟩
            intro hne
            rw [hne, List.nil_append] at hu
            rw [← hu] at hlt
            exact absurd hlt (lt_irrefl _)
          · exact ih pr.1 pr.2 g m h3
        · rw [if_neg hlt] at h
          rcases hgap _ h with ⟨g', hg'⟩
          exact ih (some c) rest g' m hg'

/-! ### Claim C9: missing values pass through untouched -/

/-- C9: for every missing input value, `scrub_pii` returns it unchanged — it is
never coerced to a text and never enters the shield, rule, entity or restore
stages (for every recognizer configuration). -/
theorem scrub_missing_passthrough : ∀ nlp : Option Recog,
    scrub_pii nlp Cell.na = some Cell.na := by
  intro nlp
  rfl

/-! ### Claim C6: the rule stage is the nine catalog substitutions in order -/

/-- C6: the rule-based stage applies exactly nine rules in the fixed order
postal code, passport, SIN, first phone shape, second phone shape, e-mail,
date of birth, PO-Box, street address; each is a global substitution by the
fixed marker `***` (every match of the scan's non-overlapping decomposition is
replaced), and each later rule runs on the previous rule's output. -/
theorem rule_catalog_order :
    ruleList.length = 9 ∧
    (∀ t, applyRules t =
      reSub ADDRESS_PATTERN starMark (reSub PO_BOX_PATTERN starMark
        (reSub DOB_PATTERN starMark (reSub EMAIL_PATTERN starMark
          (reSub PHONE_PATTERN_2 starMark (reSub PHONE_PATTERN_1 starMark
            (reSub SIN_PATTERN starMark (reSub PASSPORT_PATTERN starMark
              (reSub POSTAL_CODE_PATTERN starMark t))))))))) ∧
    starMark = ['*', '*', '*'] ∧
    (∀ r t, reSub r starMark t =
        subJoin starMark (splitM r t.length none t).1 (splitM r t.length none t).2 ∧
      joinSM (splitM r t.length none t).1 (splitM r t.length none t).2 = t) := by
  refine ⟨rfl, fun t => ?_, rfl, fun r t => ⟨reSub_eq r starMark t, splitM_join r t.length none t⟩⟩
  simp only [applyRules, ruleList, List.foldl_cons, List.foldl_nil]

/-! ### Claim C8: a recognizer exception degrades to rule-only scrubbing -/

/-- C8: if the recognizer raises on the text it is given inside a `scrub_pii`
call, the exception is swallowed and the call behaves exactly as with no
recognizer at all: the rule redactions are applied, the placeholders restored,
and the result returned normally. -/
theorem recognizer_error_degrades (f : Recog) (s : List Char) (e : Unit)
    (h : f (applyRules (shield s).1) = Except.error e) :
    scrub_pii (some f) (Cell.txt s) = scrub_pii none (Cell.txt s) := by
  simp only [scrub_pii, scrubText, entityStage, h]

/-- Witness for C8 at a concrete failing recognizer and input. -/
theorem recognizer_error_degrades_witness :
    scrub_pii (some (fun _ => Except.error ())) (Cell.txt "Card 1234-5678-9012-3456".toList) =
      scrub_pii none (Cell.txt "Card 1234-5678-9012-3456".toList) :=
  recognizer_error_degrades (fun _ => Except.error ()) "Card 1234-5678-9012-3456".toList () rfl

/-! ### Claim C5: the out-of-range restore branch substitutes the sentinel -/

/-- C5: when the restore loop finds the placeholder of an index with no
recorded span, that occurrence is replaced by the fixed sentinel
`[UNEXPECTED_CC_PLACEHOLDER]` — which is not the redaction marker `***`, and is
not any recordable credit-card literal (no string of credit-card-pattern
characters equals it). -/
theorem restore_sentinel_branch (fuel idx : Nat) (ccs : List (List Char)) (text : List Char)
    (hlen : ccs.length ≤ idx) (hfound : hasSub (phTok idx) text = true) :
    ∃ u v, text = u ++ phTok idx ++ v ∧
      restoreLoop (fuel + 1) idx ccs text =
        restoreLoop fuel (idx + 1) ccs (u ++ sentinel ++ v) ∧
      sentinel ≠ starMark ∧
      ∀ cc ∈ ccs, (∀ c ∈ cc, charsOK TEMP_CREDIT_CARD_IGNORE_PATTERN c = true) →
        sentinel ≠ cc := by
  have hne : phTok idx ≠ [] := by simp [phTok, phStem]
  have hrepl : replAt ccs idx = sentinel := by
    rw [replAt, dif_neg (by omega)]
  rcases replace1_spec (replAt ccs idx) hne hfound with ⟨u, v, hs, hr, -⟩
  refine ⟨u, v, hs, ?_, by decide, ?_⟩
  · rw [show restoreLoop (fuel + 1) idx ccs text =
      (if hasSub (phTok idx) text then
        restoreLoop fuel (idx + 1) ccs (replace1 (phTok idx) (replAt ccs idx) text)
      else some text) from rfl, if_pos hfound, hr, hrepl]
  · intro cc hcc hchars heq
    have hmem : '[' ∈ cc := by rw [← heq]; decide
    have h1 := hchars '[' hmem
    have h2 : charsOK TEMP_CREDIT_CARD_IGNORE_PATTERN '[' = false := by decide
    rw [h1] at h2
    exact absurd h2 (by simp)

/-- Witness for C5: one recorded span too few, the placeholder of index 0
present. -/
theorem restore_sentinel_branch_witness :
    ∃ u v, phTok 0 = u ++ phTok 0 ++ v ∧
      restoreLoop 2 0 [] (phTok 0) = restoreLoop 1 1 [] (u ++ sentinel ++ v) ∧
      sentinel ≠ starMark ∧
      ∀ cc ∈ ([] : List (List Char)),
        (∀ c ∈ cc, charsOK TEMP_CREDIT_CARD_IGNORE_PATTERN c = true) → sentinel ≠ cc :=
  restore_sentinel_branch 1 0 [] (phTok 0) (by decide) (by decide)

/-! ### Claim C3: the restore loop stops at the first missing index -/

/-- The text after `k` successful restore iterations: for each index below `k`
in turn, one occurrence of its placeholder replaced by its recorded literal (or
the sentinel). -/
def restoreSteps (ccs : List (List Char)) (text : List Char) : Nat → List Char
  | 0 => text
  | k + 1 => replace1 (phTok k) (replAt ccs k) (restoreSteps ccs text k)

/-- C3 (amended): indices are attempted in increasing order from 0, each found
placeholder has exactly one occurrence replaced, and the loop exits at the
FIRST index whose placeholder is absent; the result is the text after exactly
the first run of found indices — placeholders of larger indices are not
attempted (they stay in the text unrestored). -/
theorem restore_stops_at_first_missing (ccs : List (List Char)) (text : List Char) (k : Nat)
    (hfound : ∀ i, i < k → hasSub (phTok i) (restoreSteps ccs text i) = true)
    (hmiss : hasSub (phTok k) (restoreSteps ccs text k) = false) :
    ∀ fuel, k < fuel → restoreLoop fuel 0 ccs text = some (restoreSteps ccs text k) := by
  suffices haux : ∀ fuel j, j ≤ k → k - j < fuel →
      restoreLoop fuel j ccs (restoreSteps ccs text j) = some (restoreSteps ccs text k) by
    intro fuel hk
    exact haux fuel 0 (Nat.zero_le k) (by omega)
  intro fuel
  induction fuel with
  | zero => intro j h1 h2; omega
  | succ fuel ih =>
    intro j h1 h2
    by_cases hjk : j = k
    · subst hjk
      rw [show restoreLoop (fuel + 1) j ccs (restoreSteps ccs text j) =
        (if hasSub (phTok j) (restoreSteps ccs text j) then
          restoreLoop fuel (j + 1) ccs
            (replace1 (phTok j) (replAt ccs j) (restoreSteps ccs text j))
        else some (restoreSteps ccs text j)) from rfl, if_neg (by simp [hmiss])]
    · have hj : j < k := by omega
      rw [show restoreLoop (fuel + 1) j ccs (restoreSteps ccs text j) =
        (if hasSub (phTok j) (restoreSteps ccs text j) then
          restoreLoop fuel (j + 1) ccs
            (replace1 (phTok j) (replAt ccs j) (restoreSteps ccs text j))
        else some (restoreSteps ccs text j)) from rfl, if_pos (hfound j hj)]
      have : replace1 (phTok j) (replAt ccs j) (restoreSteps ccs text j) =
          restoreSteps ccs text (j + 1) := rfl
      rw [this]
      exact ih (j + 1) (by omega) (by omega)

/-- Witness for C3 (amended): placeholder 0 present, placeholder 1 absent after
its replacement; the loop stops after one step. -/
theorem restore_stops_at_first_missing_witness :
    restoreLoop 2 0 ["9".toList] (phTok 0 ++ " Z".toList) =
      some (restoreSteps ["9".toList] (phTok 0 ++ " Z".toList) 1) :=
  restore_stops_at_first_missing ["9".toList] (phTok 0 ++ " Z".toList) 1
    (by intro i hi; interval_cases i; decide) (by decide) 2 (by omega)

/-- C3 counterexample: with two recorded spans but the index-0 placeholder
destroyed, the loop exits immediately: the present placeholder of index 1 is
NOT located and NOT restored (the output still contains it verbatim and not the
recorded literal `2222`). -/
theorem restore_skips_later_counterexample :
    restoreLoop 3 0 ["1111".toList, "2222".toList] ("X ".toList ++ phTok 1) =
        some ("X ".toList ++ phTok 1) ∧
      hasSub (phTok 1) ("X ".toList ++ phTok 1) = true ∧
      hasSub (phTok 0) ("X ".toList ++ phTok 1) = false ∧
      hasSub "2222".toList ("X ".toList ++ phTok 1) = false := by
  refine ⟨?_, by decide, by decide, by decide⟩
  decide

/-! ### Claim C7: descending-order entity rewrite equals the reference splice -/

/-- Sorted-ascending, pairwise-disjoint, in-bounds cut points starting at or
after `pos`. -/
def spansOK (tlen : Nat) : Nat → List (Nat × Nat) → Bool
  | _, [] => true
  | pos, (s, e) :: rest => Nat.ble pos s && Nat.ble s e && Nat.ble e tlen && spansOK tlen e rest

/-- The spec's reference splice construction (the comparison point of the
refinement claim): copy the untouched segments between the sorted cut points,
inserting the marker over each span. -/
def spliceAux (t : List Char) : Nat → List (Nat × Nat) → List Char
  | pos, [] => t.drop pos
  | pos, (s, e) :: rest => (t.drop pos).take (s - pos) ++ starMark ++ spliceAux t e rest

/-- The reference splice over the whole buffer. -/
def spliceSpec (t : List Char) (spans : List (Nat × Nat)) : List Char := spliceAux t 0 spans

theorem entReplace_desc_eq_splice_aux (t : List Char) : ∀ (spans : List Ent) (pos : Nat),
    spansOK t.length pos (spans.map (fun en => (en.s, en.e))) = true →
    spans.reverse.foldl entReplace t =
      t.take pos ++ spliceAux t pos (spans.map (fun en => (en.s, en.e))) := by
  intro spans
  induction spans with
  | nil => intro pos h; simp [spliceAux]
  | cons en rest ih =>
    intro pos h
    simp only [List.map_cons, spansOK, Bool.and_eq_true, Nat.ble_eq] at h
    rcases h with ⟨⟨⟨h1, h2⟩, h3⟩, h4⟩
    rw [List.reverse_cons, List.foldl_append]
    simp only [List.foldl_cons, List.foldl_nil]
    rw [ih en.e h4, entReplace]
    have hlen : (t.take en.e).length = en.e := by
      simp [Nat.min_eq_left h3]
    have hA : (t.take en.e ++ spliceAux t en.e (rest.map (fun en => (en.s, en.e)))).take en.s =
        t.take en.s := by
      rw [List.take_append_of_le_length (by omega), List.take_take, Nat.min_eq_left h2]
    have hB : (t.take en.e ++ spliceAux t en.e (rest.map (fun en => (en.s, en.e)))).drop en.e =
        spliceAux t en.e (rest.map (fun en => (en.s, en.e))) := by
      have := List.drop_left (t.take en.e) (spliceAux t en.e (rest.map (fun en => (en.s, en.e))))
      rwa [hlen] at this
    rw [hA, hB]
    simp only [spliceAux]
    have hC : t.take pos ++ (t.drop pos).take (en.s - pos) = t.take en.s := by
      rw [← List.take_add]
      congr 1
      omega
    rw [← List.append_assoc, ← List.append_assoc, hC]

/-- C7: for every buffer and every ascending chain of non-overlapping in-bounds
entity spans, rewriting each span's covered range with `***` in strictly
descending order of start offset (the program's `entReplace` fold) yields
exactly the spec's splice of the untouched segments between the sorted cut
points — no replacement invalidates the offsets of a span not yet processed. -/
theorem entity_desc_rewrite_eq_splice (t : List Char) (spans : List Ent)
    (h : spansOK t.length 0 (spans.map (fun en => (en.s, en.e))) = true) :
    spans.reverse.foldl entReplace t = spliceSpec t (spans.map (fun en => (en.s, en.e))) := by
  rw [spliceSpec, entReplace_desc_eq_splice_aux t spans 0 h]
  simp

/-- Witness for C7: the spec's own example shape, two spans over a 30-character
buffer. -/
theorem entity_desc_rewrite_eq_splice_witness :
    ([⟨5, 9, "PERSON".toList⟩, ⟨20, 26, "GPE".toList⟩] : List Ent).reverse.foldl entReplace
        "abcdefghijklmnopqrstuvwxyz0123".toList =
      spliceSpec "abcdefghijklmnopqrstuvwxyz0123".toList [(5, 9), (20, 26)] :=
  entity_desc_rewrite_eq_splice "abcdefghijklmnopqrstuvwxyz0123".toList
    [⟨5, 9, "PERSON".toList⟩, ⟨20, 26, "GPE".toList⟩] (by decide)

/-! ### Counting placeholder stems: the restore loop's termination measure -/

theorem occCount_nil_of_ne {pat : List Char} (hp : pat ≠ []) : occCount pat [] = 0 := by
  cases pat with
  | nil => exact absurd rfl hp
  | cons p ps => simp [occCount, isPre]

theorem occCount_append_le (pat : List Char) (hp : pat ≠ []) : ∀ a b : List Char,
    occCount pat a + occCount pat b ≤ occCount pat (a ++ b) := by
  intro a
  induction a with
  | nil => intro b; simp [occCount_nil_of_ne hp]
  | cons c a' ih =>
    intro b
    simp only [List.cons_append, occCount, List.append_eq]
    have hmono : isPre pat (c :: a') = true → isPre pat (c :: (a' ++ b)) = true := by
      intro h
      have := isPre_mono b h
      simpa using this
    by_cases hh : isPre pat (c :: a') = true
    · rw [if_pos hh, if_pos (hmono hh)]
      have := ih b
      omega
    · rw [if_neg hh]
      have := ih b
      by_cases hh2 : isPre pat (c :: (a' ++ b)) = true
      · rw [if_pos hh2]; omega
      · rw [if_neg hh2]; omega

theorem occCount_pos (pat s : List Char) (hp : pat ≠ []) (h : isPre pat s = true) :
    1 ≤ occCount pat s := by
  cases s with
  | nil =>
    rcases isPre_iff.mp h with ⟨v, hv⟩
    rcases List.append_eq_nil.mp hv.symm with ⟨rfl, -⟩
    exact absurd rfl hp
  | cons c rest => simp [occCount, h]

theorem occCount_append_split (pat : List Char) (hp : pat ≠ []) (b : List Char)
    (hcross : ∀ j, 0 < j → j < pat.length → isPre (pat.drop j) b = false) :
    ∀ a, occCount pat (a ++ b) = occCount pat a + occCount pat b := by
  intro a
  induction a with
  | nil => simp [occCount_nil_of_ne hp]
  | cons c a' ih =>
    simp only [List.cons_append, occCount, List.append_eq, ih]
    have hhead : isPre pat (c :: (a' ++ b)) = isPre pat (c :: a') := by
      by_cases hh : isPre pat (c :: a') = true
      · rw [hh]
        have := isPre_mono b hh
        simpa using this
      · simp only [Bool.not_eq_true] at hh
        rw [hh]
        by_contra hcon
        rw [Bool.not_eq_false] at hcon
        have : isPre pat ((c :: a') ++ b) = true := by simpa using hcon
        rw [isPre_append_iff] at this
        rcases this with ⟨h1, h2⟩
        by_cases hlen : pat.length ≤ (c :: a').length
        · rw [List.take_of_length_le hlen] at h1
          simp [h1] at hh
        · have h0 : 0 < (c :: a').length := by simp
          have := hcross (c :: a').length h0 (by omega)
          rw [this] at h2
          exact absurd h2 (by simp)
    simp only [hhead]
    omega

theorem occCount_append_headMiss (p : Char) (pat : List Char) (b : List Char) :
    ∀ a, (∀ c ∈ a, (p == c) = false) →
    occCount (p :: pat) (a ++ b) = occCount (p :: pat) b := by
  intro a
  induction a with
  | nil => intro h; simp
  | cons c a' ih =>
    intro h
    simp only [List.cons_append, occCount, List.append_eq]
    have hne : isPre (p :: pat) (c :: (a' ++ b)) = false := by
      simp only [isPre, Bool.and_eq_false_iff]
      exact Or.inl (h c (by simp))
    simp [hne, ih (fun d hd => h d (by simp [hd]))]

/-- The characters a credit-card match can consist of: digits, space, hyphen. -/
def ccChar (c : Char) : Bool := isDig c || c == ' ' || c == '-'

theorem ccPat_chars {c : Char} (h : charsOK TEMP_CREDIT_CARD_IGNORE_PATTERN c = true) :
    ccChar c = true := by
  simp only [TEMP_CREDIT_CARD_IGNORE_PATTERN, cat, List.foldr, charsOK,
    Bool.or_eq_true] at h
  simp only [ccChar, Bool.or_eq_true]
  tauto

theorem phTok_ne (i : Nat) : phTok i ≠ [] := by
  simp [phTok, phStem]

theorem isPre_phStem_phTok (i : Nat) : isPre phStem (phTok i) = true := by
  rw [phTok, List.append_assoc]
  exact isPre_append _ _

theorem phStem_ne : phStem ≠ [] := by decide

theorem phStem_not_ccChar : ∀ c ∈ phStem, ccChar c = false := by decide

theorem phStem_not_lbrack : ∀ c ∈ phStem, (c == '[') = false := by decide

theorem sentinel_not_at : ∀ c ∈ sentinel, ('@' == c) = false := by decide

theorem at_not_ccChar : ccChar '@' = false := by decide

theorem tails_not_pre (pat b : List Char)
    (hhead : ∀ c ∈ pat, ∀ d, b.head? = some d → (c == d) = false) :
    ∀ j, 0 < j → j < pat.length → isPre (pat.drop j) b = false := by
  intro j hj hjl
  cases hdrop : pat.drop j with
  | nil =>
    exfalso
    have := congrArg List.length hdrop
    simp at this
    omega
  | cons c t =>
    have hc : c ∈ pat := List.drop_subset j pat (hdrop ▸ List.mem_cons_self c t)
    cases b with
    | nil => simp [isPre]
    | cons d b' =>
      simp only [isPre, Bool.and_eq_false_iff]
      exact Or.inl (hhead c hc d rfl)

/-- Replacing one placeholder occurrence by a credit-card literal or the
sentinel strictly decreases the number of placeholder stems in the text. -/
theorem occ_decrease (u v repl : List Char) (idx : Nat)
    (hrepl : (repl ≠ [] ∧ ∀ c ∈ repl, ccChar c = true) ∨ repl = sentinel) :
    occCount phStem (u ++ repl ++ v) < occCount phStem (u ++ phTok idx ++ v) := by
  have hstem : phStem = '@' :: "@TEMP_CC_PLACEHOLDER_".toList := by decide
  obtain ⟨r0, r', hr0⟩ : ∃ r0 r', repl = r0 :: r' := by
    rcases hrepl with ⟨hne, -⟩ | rfl
    · cases repl with
      | nil => exact absurd rfl hne
      | cons a b => exact ⟨a, b, rfl⟩
    · exact ⟨'[', _, rfl⟩
  have hmiss0 : ∀ c ∈ phStem, (c == r0) = false := by
    rcases hrepl with ⟨-, hcc⟩ | rfl
    · intro c hc
      have h1 := phStem_not_ccChar c hc
      have h2 := hcc r0 (by simp [hr0])
      by_contra hbe
      rw [Bool.not_eq_false, beq_iff_eq] at hbe
      rw [hbe, h2] at h1
      exact absurd h1 (by simp)
    · intro c hc
      have : r0 = '[' := by
        have : ('[' :: _ : List Char) = r0 :: r' := hr0
        exact (List.cons.injEq .. ▸ this).1.symm
      rw [this]
      exact phStem_not_lbrack c hc
  have hmissAt : ∀ c ∈ repl, ('@' == c) = false := by
    rcases hrepl with ⟨-, hcc⟩ | rfl
    · intro c hc
      have h2 := hcc c hc
      by_contra hbe
      rw [Bool.not_eq_false, beq_iff_eq] at hbe
      rw [← hbe, at_not_ccChar] at h2
      exact absurd h2 (by simp)
    · exact sentinel_not_at
  have hsplit : occCount phStem (u ++ (repl ++ v)) =
      occCount phStem u + occCount phStem (repl ++ v) := by
    apply occCount_append_split phStem phStem_ne (repl ++ v) _ u
    apply tails_not_pre
    intro c hc d hd
    rw [hr0] at hd
    simp only [List.cons_append, List.head?_cons, Option.some.injEq] at hd
    rw [← hd]
    exact hmiss0 c hc
  have hdropRepl : occCount phStem (repl ++ v) = occCount phStem v := by
    rw [hstem]
    exact occCount_append_headMiss '@' _ v repl hmissAt
  have hnew : occCount phStem (u ++ (repl ++ v)) =
      occCount phStem u + occCount phStem v := by rw [hsplit, hdropRepl]
  have hold : occCount phStem u + occCount phStem v + 1 ≤
      occCount phStem (u ++ (phTok idx ++ v)) := by
    have h1 := occCount_append_le phStem phStem_ne u (phTok idx ++ v)
    have h2 := occCount_append_le phStem phStem_ne (phTok idx) v
    have h3 : 1 ≤ occCount phStem (phTok idx) :=
      occCount_pos phStem (phTok idx) phStem_ne (isPre_phStem_phTok idx)
    omega
  rw [List.append_assoc, List.append_assoc]
  omega

/-- The restore loop exits by its own `break` (never by fuel exhaustion) when
given one more unit of fuel than there are placeholder stems in the text, for
any recorded list of non-empty credit-card-character literals. -/
theorem restoreLoop_total : ∀ (fuel idx : Nat) (ccs : List (List Char)) (text : List Char),
    occCount phStem text < fuel →
    (∀ cc ∈ ccs, cc ≠ [] ∧ ∀ c ∈ cc, ccChar c = true) →
    ∃ res, restoreLoop fuel idx ccs text = some res := by
  intro fuel
  induction fuel with
  | zero => intro idx ccs text h hccs; omega
  | succ fuel ih =>
    intro idx ccs text hcount hccs
    by_cases hfound : hasSub (phTok idx) text = true
    · rcases replace1_spec (replAt ccs idx) (phTok_ne idx) hfound with ⟨u, v, hs, hr, -⟩
      rw [show restoreLoop (fuel + 1) idx ccs text =
        (if hasSub (phTok idx) text then
          restoreLoop fuel (idx + 1) ccs (replace1 (phTok idx) (replAt ccs idx) text)
        else some text) from rfl, if_pos hfound, hr]
      apply ih (idx + 1) ccs _ _ hccs
      have hdec : occCount phStem (u ++ replAt ccs idx ++ v) <
          occCount phStem (u ++ phTok idx ++ v) := by
        apply occ_decrease
        by_cases hidx : idx < ccs.length
        · left
          rw [replAt, dif_pos hidx]
          exact ⟨(hccs _ (ccs.get_mem _ _)).1, (hccs _ (ccs.get_mem _ _)).2⟩
        · right
          rw [replAt, dif_neg hidx]
      rw [hs] at hcount
      omega
    · refine ⟨text, ?_⟩
      rw [show restoreLoop (fuel + 1) idx ccs text =
        (if hasSub (phTok idx) text then
          restoreLoop fuel (idx + 1) ccs (replace1 (phTok idx) (replAt ccs idx) text)
        else some text) from rfl, if_neg (by simp [hfound])]

/-! ### Claim C10: the pipeline terminates on every input -/

/-- C10: for every input value and every recognizer configuration, `scrub_pii`
terminates with a result: in particular the unbounded restore `while` loop
reaches its `break` (each iteration that finds a placeholder consumes one
occurrence, replacing it with a recorded literal or the sentinel, neither of
which can recreate a placeholder stem, and the loop exits at the first index
whose placeholder is absent). -/
theorem scrub_terminates (nlp : Option Recog) (v : Cell) :
    ∃ r, scrub_pii nlp v = some r := by
  cases v with
  | na => exact ⟨Cell.na, rfl⟩
  | txt s =>
    obtain ⟨res, hres⟩ : ∃ res, scrubText nlp s = some res := by
      rw [scrubText]
      apply restoreLoop_total _ 0 _ _ (by omega)
      intro cc hcc
      rw [shield_eq] at hcc
      simp only at hcc
      rcases List.mem_map.mp hcc with ⟨⟨g, m⟩, hm, rfl⟩
      have hfacts := splitM_matches TEMP_CREDIT_CARD_IGNORE_PATTERN s.length none s g m hm
      exact ⟨hfacts.1, fun c hc => ccPat_chars (hfacts.2 c hc)⟩
    exact ⟨Cell.txt res, by rw [scrub_pii, hres]; rfl⟩

/-! ### Locality of leftmost replacement -/

theorem hasSub_mono_left {pat a : List Char} (b : List Char) (h : hasSub pat a = true) :
    hasSub pat (a ++ b) = true := by
  rcases hasSub_iff.mp h with ⟨u, v, rfl⟩
  exact hasSub_iff.mpr ⟨u, v ++ b, by simp⟩

theorem hasSub_of_isPre_drop {pat a : List Char} {i : Nat} (h : isPre pat (a.drop i) = true) :
    hasSub pat a = true := by
  rcases isPre_iff.mp h with ⟨w, hw⟩
  refine hasSub_iff.mpr ⟨a.take i, w, ?_⟩
  conv_lhs => rw [← List.take_append_drop i a]
  rw [hw]
  exact (List.append_assoc _ _ _).symm

theorem isPre_of_append_left {p w s : List Char} (h : isPre (p ++ w) s = true) :
    isPre p s = true := by
  rcases isPre_iff.mp h with ⟨v, rfl⟩
  rw [List.append_assoc]
  exact isPre_append _ _

theorem hasSub_of_append_left {p w s : List Char} (h : hasSub (p ++ w) s = true) :
    hasSub p s = true := by
  rcases hasSub_iff.mp h with ⟨u, v, rfl⟩
  exact hasSub_iff.mpr ⟨u, w ++ v, by simp⟩

theorem replace1_append (pat repl : List Char) : ∀ a b : List Char,
    (∀ i, i < a.length → isPre pat (a.drop i ++ b) = false) →
    replace1 pat repl (a ++ b) = a ++ replace1 pat repl b := by
  intro a
  induction a with
  | nil => intro b h; simp
  | cons c a' ih =>
    intro b h
    have h0 := h 0 (by simp)
    simp only [List.drop_zero] at h0
    simp only [List.cons_append, replace1, List.append_eq]
    rw [show isPre pat (c :: (a' ++ b)) = false from by simpa using h0]
    simp only [Bool.false_eq_true, if_false, List.cons.injEq, true_and]
    exact ih b (fun i hi => by
      have := h (i + 1) (by simpa using Nat.succ_lt_succ hi)
      simpa using this)

theorem replace1_head {pat : List Char} (repl s : List Char) (hp : pat ≠ []) :
    replace1 pat repl (pat ++ s) = repl ++ s := by
  cases pat with
  | nil => exact absurd rfl hp
  | cons p pt =>
    have hpre : isPre (p :: pt) ((p :: pt) ++ s) = true := isPre_append _ s
    simp only [List.cons_append] at hpre
    simp only [List.cons_append, replace1, List.append_eq, List.length_cons,
      List.drop_succ_cons, hpre, if_true]
    congr 1
    exact List.drop_left pt s

theorem phStem_borderFree :
    ∀ k, k < phStem.length → 0 < k → isPre (phStem.drop k) phStem = false := by decide

/-- The placeholder token split into the stem and its remainder. -/
theorem phTok_eq_append (i : Nat) : phTok i = phStem ++ (natStr i ++ "@@".toList) := by
  rw [phTok, List.append_assoc]

/-- No occurrence of a placeholder token starts inside a stem-free block that a
stem-headed continuation follows. -/
theorem noOcc_before_stem (a w rest : List Char) (ha : hasSub phStem a = false) :
    ∀ i, i < a.length → isPre (phStem ++ w) (a.drop i ++ (phStem ++ rest)) = false := by
  intro i hi
  by_contra hcon
  rw [Bool.not_eq_false] at hcon
  have hpre : isPre phStem (a.drop i ++ (phStem ++ rest)) = true := isPre_of_append_left hcon
  rw [isPre_append_iff] at hpre
  rcases hpre with ⟨h1, h2⟩
  by_cases hlen : phStem.length ≤ (a.drop i).length
  · rw [List.take_of_length_le hlen] at h1
    rw [hasSub_of_isPre_drop h1] at ha
    exact absurd ha (by simp)
  · have hlt : (a.drop i).length < phStem.length := by omega
    have hpos : 0 < (a.drop i).length := by
      rw [List.length_drop]
      omega
    rw [isPre_append_iff] at h2
    rcases h2 with ⟨h3, -⟩
    rw [List.take_of_length_le (by
      rw [List.length_drop]
      omega)] at h3
    rw [phStem_borderFree (a.drop i).length hlt hpos] at h3
    exact absurd h3 (by simp)

/-! ### Claim C2: restore after shield -/

/-- Running the restore loop over a shielded rendering whose restored form is
stem-free replaces each placeholder, in index order, by the corresponding
recorded literal, and stops right after the last one. -/
theorem restore_render (tl : List Char) :
    ∀ (msRest : List (List Char × List Char)) (j : Nat) (C : List Char)
    (ccs : List (List Char)) (fuel : Nat),
    hasSub phStem (C ++ joinSM msRest tl) = false →
    (∀ i (h : i < msRest.length), replAt ccs (j + i) = (msRest.get ⟨i, h⟩).2) →
    msRest.length < fuel →
    restoreLoop fuel j ccs (C ++ shJoin j msRest tl) = some (C ++ joinSM msRest tl) := by
  intro msRest
  induction msRest with
  | nil =>
    intro j C ccs fuel hclean hccs hfuel
    cases fuel with
    | zero => omega
    | succ fuel =>
      rw [show restoreLoop (fuel + 1) j ccs (C ++ shJoin j [] tl) =
        (if hasSub (phTok j) (C ++ shJoin j [] tl) then
          restoreLoop fuel (j + 1) ccs
            (replace1 (phTok j) (replAt ccs j) (C ++ shJoin j [] tl))
        else some (C ++ shJoin j [] tl)) from rfl]
      have hnot : hasSub (phTok j) (C ++ shJoin j [] tl) = false := by
        by_contra hcon
        rw [Bool.not_eq_false] at hcon
        rw [phTok_eq_append] at hcon
        have := hasSub_of_append_left hcon
        rw [show (shJoin j [] tl) = tl from rfl] at this
        rw [show (joinSM [] tl) = tl from rfl] at hclean
        rw [this] at hclean
        exact absurd hclean (by simp)
      rw [if_neg (by simp [hnot])]
      rfl
  | cons gm rest ih =>
    rcases gm with ⟨g, m⟩
    intro j C ccs fuel hclean hccs hfuel
    cases fuel with
    | zero => simp at hfuel
    | succ fuel =>
      have htext : C ++ shJoin j ((g, m) :: rest) tl =
          (C ++ g) ++ (phTok j ++ shJoin (j + 1) rest tl) := by
        rw [show shJoin j ((g, m) :: rest) tl = g ++ phTok j ++ shJoin (j + 1) rest tl from rfl]
        simp [List.append_assoc]
      have hjoin : C ++ joinSM ((g, m) :: rest) tl = (C ++ g ++ m) ++ joinSM rest tl := by
        rw [show joinSM ((g, m) :: rest) tl = g ++ m ++ joinSM rest tl from rfl]
        simp [List.append_assoc]
      have hcleanCg : hasSub phStem (C ++ g) = false := by
        by_contra hcon
        rw [Bool.not_eq_false] at hcon
        have := hasSub_mono_left (m ++ joinSM rest tl) hcon
        rw [hjoin] at hclean
        rw [show (C ++ g) ++ (m ++ joinSM rest tl) = (C ++ g ++ m) ++ joinSM rest tl from by
          simp [List.append_assoc]] at this
        rw [this] at hclean
        exact absurd hclean (by simp)
      have hfound : hasSub (phTok j) (C ++ shJoin j ((g, m) :: rest) tl) = true := by
        rw [htext]
        rw [show (C ++ g) ++ (phTok j ++ shJoin (j + 1) rest tl) =
          (C ++ g) ++ phTok j ++ shJoin (j + 1) rest tl from by simp [List.append_assoc]]
        exact hasSub_of_append (phTok j) (C ++ g) (shJoin (j + 1) rest tl)
      rw [show restoreLoop (fuel + 1) j ccs (C ++ shJoin j ((g, m) :: rest) tl) =
        (if hasSub (phTok j) (C ++ shJoin j ((g, m) :: rest) tl) then
          restoreLoop fuel (j + 1) ccs
            (replace1 (phTok j) (replAt ccs j) (C ++ shJoin j ((g, m) :: rest) tl))
        else some (C ++ shJoin j ((g, m) :: rest) tl)) from rfl, if_pos hfound]
      have hrepl1 : replace1 (phTok j) (replAt ccs j) (C ++ shJoin j ((g, m) :: rest) tl) =
          (C ++ g) ++ replAt ccs j ++ shJoin (j + 1) rest tl := by
        rw [htext, replace1_append (phTok j) (replAt ccs j) (C ++ g) _ ?_]
        · rw [replace1_head _ _ (phTok_ne j)]
          simp [List.append_assoc]
        · intro i hi
          rw [phTok_eq_append, List.append_assoc,
            show (phStem ++ (natStr j ++ "@@".toList ++ shJoin (j + 1) rest tl)) =
              phStem ++ (natStr j ++ ("@@".toList ++ shJoin (j + 1) rest tl)) from by
                simp [List.append_assoc]]
          exact noOcc_before_stem (C ++ g) (natStr j ++ "@@".toList) _ hcleanCg i hi
      rw [hrepl1]
      have hm : replAt ccs j = m := by
        have := hccs 0 (by simp)
        simpa using this
      rw [hm]
      have hccs' : ∀ i (h : i < rest.length), replAt ccs (j + 1 + i) = (rest.get ⟨i, h⟩).2 := by
        intro i h
        have := hccs (i + 1) (by simpa using Nat.succ_lt_succ h)
        rw [show j + (i + 1) = j + 1 + i from by omega] at this
        simpa using this
      have hcleanNext : hasSub phStem ((C ++ g ++ m) ++ joinSM rest tl) = false := by
        rw [← hjoin]; exact hclean
      have := ih (j + 1) (C ++ g ++ m) ccs fuel hcleanNext hccs' (by simpa using hfuel)
      rw [show (C ++ g) ++ m ++ shJoin (j + 1) rest tl =
        (C ++ g ++ m) ++ shJoin (j + 1) rest tl from by simp [List.append_assoc]]
      rw [this, hjoin]

/-- C2 (amended): for every text `x` that does not itself contain the
placeholder stem `@@TEMP_CC_PLACEHOLDER_`, immediately restoring the shielded
text with the recorded spans yields exactly `x`. -/
theorem restore_shield_id_amended (x : List Char) (hx : hasSub phStem x = false)
    (fuel : Nat) (hfuel : (shield x).2.length < fuel) :
    restoreLoop fuel 0 (shield x).2 (shield x).1 = some x := by
  rw [shield_eq] at hfuel ⊢
  simp only [List.length_map] at hfuel
  have hjoin := splitM_join TEMP_CREDIT_CARD_IGNORE_PATTERN x.length none x
  have hccs : ∀ i (h : i < (splitM TEMP_CREDIT_CARD_IGNORE_PATTERN x.length none x).1.length),
      replAt ((splitM TEMP_CREDIT_CARD_IGNORE_PATTERN x.length none x).1.map Prod.snd) (0 + i) =
        ((splitM TEMP_CREDIT_CARD_IGNORE_PATTERN x.length none x).1.get ⟨i, h⟩).2 := by
    intro i h
    rw [replAt, dif_pos (by simpa using h)]
    simp
  have := restore_render (splitM TEMP_CREDIT_CARD_IGNORE_PATTERN x.length none x).2
    (splitM TEMP_CREDIT_CARD_IGNORE_PATTERN x.length none x).1 0 []
    ((splitM TEMP_CREDIT_CARD_IGNORE_PATTERN x.length none x).1.map Prod.snd) fuel
    (by simpa [hjoin] using hx) hccs hfuel
  simpa [hjoin] using this

/-- Witness for C2 (amended) on the spec's credit-card example. -/
theorem restore_shield_id_amended_witness :
    hasSub phStem "My Card is 1234-5678-9012-3456, thanks.".toList = false ∧
    (shield "My Card is 1234-5678-9012-3456, thanks.".toList).2.length < 2 ∧
    restoreLoop 2 0 (shield "My Card is 1234-5678-9012-3456, thanks.".toList).2
        (shield "My Card is 1234-5678-9012-3456, thanks.".toList).1 =
      some "My Card is 1234-5678-9012-3456, thanks.".toList :=
  ⟨by decide, by decide,
    restore_shield_id_amended "My Card is 1234-5678-9012-3456, thanks.".toList
      (by decide) 2 (by decide)⟩

/-- C2 counterexample: on a text that already contains a placeholder token,
restore-after-shield is NOT the identity — the restore loop rewrites the
pre-existing token with the recorded card and leaves the real placeholder
behind. -/
theorem restore_shield_counterexample :
    restoreLoop
        (occCount phStem
          (shield "@@TEMP_CC_PLACEHOLDER_0@@ 1234-5678-9012-3456".toList).1 + 1) 0
        (shield "@@TEMP_CC_PLACEHOLDER_0@@ 1234-5678-9012-3456".toList).2
        (shield "@@TEMP_CC_PLACEHOLDER_0@@ 1234-5678-9012-3456".toList).1 =
      some "1234-5678-9012-3456 @@TEMP_CC_PLACEHOLDER_0@@".toList ∧
    restoreLoop
        (occCount phStem
          (shield "@@TEMP_CC_PLACEHOLDER_0@@ 1234-5678-9012-3456".toList).1 + 1) 0
        (shield "@@TEMP_CC_PLACEHOLDER_0@@ 1234-5678-9012-3456".toList).2
        (shield "@@TEMP_CC_PLACEHOLDER_0@@ 1234-5678-9012-3456".toList).1 ≠
      some "@@TEMP_CC_PLACEHOLDER_0@@ 1234-5678-9012-3456".toList := by
  exact ⟨by decide, by decide⟩

/-! ### Claim C1: credit-card preservation for the fixed example input -/

/-- The spec's credit-card example input. -/
def ccExampleInput : List Char := "My Card is 1234-5678-9012-3456, thanks.".toList

/-- The card number that must be preserved. -/
def ccExampleCard : List Char := "1234-5678-9012-3456".toList

theorem digitCh_isDig (n : Nat) : isDig (digitCh n) = true := by
  unfold digitCh
  split <;> decide

theorem natStrAux_digits : ∀ (fuel n : Nat) (c : Char), c ∈ natStrAux fuel n →
    isDig c = true := by
  intro fuel
  induction fuel with
  | zero =>
    intro n c hc
    simp only [natStrAux, List.mem_singleton] at hc
    rw [hc]; exact digitCh_isDig n
  | succ fuel ih =>
    intro n c hc
    rw [natStrAux] at hc
    by_cases h10 : n < 10
    · rw [if_pos h10] at hc
      simp only [List.mem_singleton] at hc
      rw [hc]; exact digitCh_isDig n
    · rw [if_neg h10] at hc
      rcases List.mem_append.mp hc with h1 | h2
      · exact ih _ c h1
      · simp only [List.mem_singleton] at h2
        rw [h2]; exact digitCh_isDig _

theorem natStr_digits (n : Nat) {c : Char} (hc : c ∈ natStr n) : isDig c = true :=
  natStrAux_digits n n c hc

theorem dash_not_in_phTok (k : Nat) : '-' ∉ phTok k := by
  rw [phTok]
  intro hmem
  rcases List.mem_append.mp hmem with h1 | h2
  · rcases List.mem_append.mp h1 with h3 | h4
    · revert h3; decide
    · have := natStr_digits k h4
      revert this; decide
  · revert h2; decide

theorem phTok_head (k : Nat) :
    ∃ r, phTok k = '@' :: r := by
  refine ⟨("@TEMP_CC_PLACEHOLDER_".toList ++ natStr k) ++ "@@".toList, ?_⟩
  rw [phTok, show phStem = '@' :: "@TEMP_CC_PLACEHOLDER_".toList from by decide]
  simp

theorem phTok_last (k : Nat) :
    ∃ pre, phTok k = pre ++ ['@'] := by
  refine ⟨phStem ++ natStr k ++ ['@'], ?_⟩
  rw [phTok, show "@@".toList = ['@'] ++ ['@'] from by decide]
  simp

theorem at_not_in_card : '@' ∉ ccExampleCard := by decide

theorem card_head : ∃ r, ccExampleCard = '1' :: r := ⟨"234-5678-9012-3456".toList, by decide⟩

/-- An occurrence of a placeholder token never overlaps an occurrence of the
example card number: whichever way the two decompositions align, the card
survives on one side of the token. -/
theorem tok_occ_keeps_card (k : Nat) {u v u0 v0 : List Char}
    (hs : u ++ (ccExampleCard ++ v) = u0 ++ (phTok k ++ v0)) :
    (∃ a b, u0 = a ++ (ccExampleCard ++ b)) ∨ (∃ a b, v0 = a ++ (ccExampleCard ++ b)) := by
  rcases phTok_head k with ⟨tokR, htokh⟩
  rcases List.append_eq_append_iff.mp hs with ⟨x, hx1, hx2⟩ | ⟨y, hy1, hy2⟩
  · -- u0 = u ++ x, ccExampleCard ++ v = x ++ (phTok k ++ v0)
    rcases List.append_eq_append_iff.mp hx2 with ⟨z, hz1, hz2⟩ | ⟨z, hz1, hz2⟩
    · -- x = ccExampleCard ++ z : the card sits inside u0
      left
      exact ⟨u, z, by rw [hx1, hz1]⟩
    · -- ccExampleCard = x ++ z, phTok k ++ v0 = z ++ v
      cases z with
      | nil =>
        -- ccExampleCard = x, so u0 = u ++ ccExampleCard
        left
        refine ⟨u, [], ?_⟩
        rw [hx1, List.append_nil, hz1, List.append_nil]
      | cons e z' =>
        exfalso
        apply at_not_in_card
        have he : e = '@' := by
          rw [htokh] at hz2
          simp only [List.cons_append, List.cons.injEq] at hz2
          exact hz2.1.symm
        rw [hz1, he]
        simp
  · -- u = u0 ++ y, phTok k ++ v0 = y ++ (ccExampleCard ++ v)
    rcases List.append_eq_append_iff.mp hy2 with ⟨z, hz1, hz2⟩ | ⟨z, hz1, hz2⟩
    · -- y = phTok k ++ z, v0 = z ++ (ccExampleCard ++ v)
      right
      exact ⟨z, v, hz2⟩
    · -- phTok k = y ++ z, ccExampleCard ++ v = z ++ v0
      cases hzn : z with
      | nil =>
        -- phTok k = y, v0 = ccExampleCard ++ v
        right
        refine ⟨[], v, ?_⟩
        rw [hzn] at hz2
        simpa using hz2.symm
      | cons e z' =>
        exfalso
        rcases List.append_eq_append_iff.mp hz2 with ⟨w, hw1, hw2⟩ | ⟨w, hw1, hw2⟩
        · -- z = ccExampleCard ++ w : the card is inside the token
          apply dash_not_in_phTok k
          rw [hz1, hw1]
          have hd : '-' ∈ ccExampleCard := by decide
          simp [hd]
        · -- ccExampleCard = z ++ w : z is a nonempty prefix of the card and a
          -- suffix of the token, which ends in '@'
          apply at_not_in_card
          rcases phTok_last k with ⟨pre, hpre⟩
          rcases List.eq_nil_or_concat z with hnil | ⟨z'', c, hcat⟩
          · rw [hzn] at hnil; simp at hnil
          · have htok2 : (y ++ z'') ++ [c] = pre ++ ['@'] := by
              rw [List.append_assoc, ← List.concat_eq_append, ← hcat, ← hz1, hpre]
            have hinj := List.append_inj' htok2 (by simp)
            have hc : c = '@' := by simpa using hinj.2
            rw [hw1, hcat, hc]
            simp

theorem replace1_keeps_card (k : Nat) (repl u v : List Char) :
    ∃ u' v', replace1 (phTok k) repl (u ++ (ccExampleCard ++ v)) =
      u' ++ (ccExampleCard ++ v') := by
  by_cases hfound : hasSub (phTok k) (u ++ (ccExampleCard ++ v)) = true
  · rcases replace1_spec repl (phTok_ne k) hfound with ⟨u0, v0, hs, hr, -⟩
    have hs' : u ++ (ccExampleCard ++ v) = u0 ++ (phTok k ++ v0) := by
      rw [hs]; simp [List.append_assoc]
    rw [hr]
    rcases tok_occ_keeps_card k hs' with ⟨a, b, hab⟩ | ⟨a, b, hab⟩
    · exact ⟨a, b ++ (repl ++ v0), by rw [hab]; simp [List.append_assoc]⟩
    · exact ⟨u0 ++ (repl ++ a), b, by rw [hab]; simp [List.append_assoc]⟩
  · refine ⟨u, v, ?_⟩
    rw [replace1_of_not (by simpa using hfound)]

theorem restoreLoop_keeps_card : ∀ (fuel idx : Nat) (ccs : List (List Char))
    (u v res : List Char),
    restoreLoop fuel idx ccs (u ++ (ccExampleCard ++ v)) = some res →
    ∃ u' v', res = u' ++ (ccExampleCard ++ v') := by
  intro fuel
  induction fuel with
  | zero => intro idx ccs u v res h; simp [restoreLoop] at h
  | succ fuel ih =>
    intro idx ccs u v res h
    rw [show restoreLoop (fuel + 1) idx ccs (u ++ (ccExampleCard ++ v)) =
      (if hasSub (phTok idx) (u ++ (ccExampleCard ++ v)) then
        restoreLoop fuel (idx + 1) ccs
          (replace1 (phTok idx) (replAt ccs idx) (u ++ (ccExampleCard ++ v)))
      else some (u ++ (ccExampleCard ++ v))) from rfl] at h
    by_cases hf : hasSub (phTok idx) (u ++ (ccExampleCard ++ v)) = true
    · rw [if_pos hf] at h
      rcases replace1_keeps_card idx (replAt ccs idx) u v with ⟨u1, v1, heq⟩
      rw [heq] at h
      exact ih (idx + 1) ccs u1 v1 res h
    · rw [if_neg (by simpa using hf)] at h
      exact ⟨u, v, (Option.some.injEq .. ▸ h).symm⟩

/-- C1 (amended): on the input `"My Card is 1234-5678-9012-3456, thanks."` the
output of `scrub_pii` contains `1234-5678-9012-3456` verbatim for EVERY
recognizer behaviour that leaves the placeholder token intact in the text the
entity stage produces (in particular when no recognizer is configured, when it
fails, or when its spans do not touch the placeholder). -/
theorem scrub_cc_preserved_amended (nlp : Option Recog)
    (h : hasSub (phTok 0) (entityStage nlp (applyRules (shield ccExampleInput).1)) = true) :
    ∃ out, scrub_pii nlp (Cell.txt ccExampleInput) = some (Cell.txt out) ∧
      hasSub ccExampleCard out = true := by
  have hccs : (shield ccExampleInput).2 = [ccExampleCard] := by decide
  rcases replace1_spec (replAt (shield ccExampleInput).2 0) (phTok_ne 0) h with
    ⟨u0, v0, hs, hr, -⟩
  have hreplAt : replAt (shield ccExampleInput).2 0 = ccExampleCard := by
    rw [hccs]
    rfl
  rw [hreplAt] at hr
  have hdec : occCount phStem (u0 ++ ccExampleCard ++ v0) <
      occCount phStem (u0 ++ phTok 0 ++ v0) :=
    occ_decrease u0 v0 ccExampleCard 0 (Or.inl ⟨by decide, by decide⟩)
  have hcond : ∀ cc ∈ (shield ccExampleInput).2, cc ≠ [] ∧ ∀ c ∈ cc, ccChar c = true := by
    rw [hccs]
    intro cc hcc
    simp only [List.mem_singleton] at hcc
    subst hcc
    exact ⟨by decide, by decide⟩
  obtain ⟨res, hres⟩ := restoreLoop_total
    (occCount phStem (entityStage nlp (applyRules (shield ccExampleInput).1))) 1
    (shield ccExampleInput).2 (u0 ++ ccExampleCard ++ v0) (by rw [hs]; exact hdec) hcond
  have hchain : scrubText nlp ccExampleInput = some res := by
    rw [scrubText]
    rw [show restoreLoop
        (occCount phStem (entityStage nlp (applyRules (shield ccExampleInput).1)) + 1) 0
        (shield ccExampleInput).2
        (entityStage nlp (applyRules (shield ccExampleInput).1)) =
      (if hasSub (phTok 0) (entityStage nlp (applyRules (shield ccExampleInput).1)) then
        restoreLoop
          (occCount phStem (entityStage nlp (applyRules (shield ccExampleInput).1))) 1
          (shield ccExampleInput).2
          (replace1 (phTok 0) (replAt (shield ccExampleInput).2 0)
            (entityStage nlp (applyRules (shield ccExampleInput).1)))
      else some (entityStage nlp (applyRules (shield ccExampleInput).1))) from rfl,
      if_pos h, hreplAt, hr]
    exact hres
  obtain ⟨u', v', hresC⟩ := restoreLoop_keeps_card
    (occCount phStem (entityStage nlp (applyRules (shield ccExampleInput).1))) 1
    (shield ccExampleInput).2 u0 v0 res (by
      rw [← List.append_assoc]
      exact hres)
  refine ⟨res, ?_, ?_⟩
  · show (scrubText nlp ccExampleInput).map Cell.txt = some (Cell.txt res)
    rw [hchain]
    rfl
  · rw [hresC, ← List.append_assoc]
    exact hasSub_of_append ccExampleCard u' v'

/-- Witness for C1 (amended): with no recognizer configured, the placeholder
survives the rule stage and the card is preserved. -/
theorem scrub_cc_preserved_amended_witness :
    ∃ out, scrub_pii none (Cell.txt ccExampleInput) = some (Cell.txt out) ∧
      hasSub ccExampleCard out = true :=
  scrub_cc_preserved_amended none (by decide)

/-- C1 counterexample: a recognizer returning a span that covers the shielded
text destroys the placeholder, and the card is NOT preserved — the output is
`***` and does not contain the card. -/
theorem scrub_cc_arbitrary_span_counterexample :
    scrub_pii (some (fun _ => Except.ok [⟨0, 45, "PERSON".toList⟩]))
        (Cell.txt ccExampleInput) = some (Cell.txt "***".toList) ∧
      hasSub ccExampleCard "***".toList = false := by
  exact ⟨by decide, by decide⟩

/-- Join texts with a single space between consecutive elements. -/
def joinSp : List (List Char) → List Char
  | [] => []
  | [x] => x
  | x :: y :: rest => x ++ ' ' :: joinSp (y :: rest)

/-- An input with 101 credit-card-like digit runs: shielding assigns indices
0..100, and the text placed before the last one feeds the SIN rule. -/
def bigInput : List Char :=
  joinSp (List.replicate 100 "1111111111111".toList) ++ " 111 aaa 222 1111111111111".toList

/-- C4 counterexample: a placeholder token combined with surrounding text IS
matched and rewritten by a rule.  On the 40-character text
`111 aaa 222 @@TEMP_CC_PLACEHOLDER_100@@` the nine-rule stage erases the
placeholder of index 100: the SIN pattern's second alternative
`\d\x7b3\x7d\D*\d\x7b3\x7d\D*\d\x7b3\x7d` matches `111 aaa 222
@@TEMP_CC_PLACEHOLDER_100`, consuming the placeholder's three-digit index, so
the whole stretch is rewritten to `***` and the token is destroyed.  This text
occurs verbatim in the shielded form of `bigInput`, whose 101 credit-card runs
make shielding emit exactly this token. -/
theorem placeholder_destroyed_by_rules_counterexample :
    hasSub (phTok 100) ("111 aaa 222 ".toList ++ phTok 100) = true ∧
      hasSub (phTok 100) (applyRules ("111 aaa 222 ".toList ++ phTok 100)) = false := by
  exact ⟨by decide, by decide⟩
